import Mathlib

/-!
A verification model of the backup-retention logic of `machine_code.py`:
the planning step inside `clean_backup_files` (sorting by parsed
timestamp, protecting `backups_sorted[-1]`, filtering by the retention
cutoff), candidate discovery (directory filtering plus
`datetime.strptime(ts, "%Y%m%d_%H%M%S")`), the unfiltered
`delete_all_backups` plan, the best-effort deletion loops of the GUI
handlers, the JSON rewrite of `update_storage_file`, and the
retention-days input handling of `on_clean_clicked`.

Timestamps are modelled as integer second counts on the proleptic
Gregorian axis: Python `datetime` values are totally ordered and
`datetime - timedelta(days=d)` subtracts exactly `d * 86400` seconds, so
the integer picture is order- and arithmetic-faithful.
-/

namespace MachineCode

/-- One backup candidate as accumulated in the `backups` list of
`clean_backup_files` (lines 158-173): the joined path and the timestamp
parsed from the file name, `none` when `datetime.strptime` raised
`ValueError`. -/
structure Candidate where
  path : String
  ts : Option Int
deriving DecidableEq, Repr

/-- The sort-key comparison of line 179, `key = (x[1] or datetime.max)`:
a missing timestamp compares like `datetime.max`, which lies strictly
above every parsable timestamp (strptime never produces the microsecond
field 999999 of `datetime.max`), and two missing timestamps compare
equal. -/
def tsKeyLe : Option Int → Option Int → Bool
  | some a, some b => decide (a ≤ b)
  | some _, none => true
  | none, some _ => false
  | none, none => true

/-- Candidate comparison used by the `sorted(...)` call on line 179. -/
def candLe (a b : Candidate) : Prop := tsKeyLe a.ts b.ts = true

instance : DecidableRel candLe := fun a b => Bool.decEq (tsKeyLe a.ts b.ts) true

instance : IsTotal Candidate candLe :=
  ⟨fun a b => by
    unfold candLe
    cases a.ts <;> cases b.ts <;> simp [tsKeyLe] <;> omega⟩

instance : IsTrans Candidate candLe :=
  ⟨fun a b c => by
    unfold candLe
    cases a.ts <;> cases b.ts <;> cases c.ts <;> simp [tsKeyLe] <;> omega⟩

/-- The `backups_sorted = sorted(backups, key=lambda x: x[1] or
datetime.max)` call of line 179. Python `sorted` is stable, as is
`List.insertionSort` over a total preorder, and a stable ascending sort
is unique, so the two agree element for element. -/
def sortBackups (cs : List Candidate) : List Candidate :=
  List.insertionSort candLe cs

/-- The per-candidate deletion test of the loop on lines 186-195: skip
the retained path, skip candidates without a parsed timestamp, keep
exactly those strictly older than the cutoff. -/
def deletable (newestPath : String) (cutoff : Int) (c : Candidate) : Bool :=
  c.path != newestPath &&
    match c.ts with
    | none => false
    | some t => decide (t < cutoff)

/-- Lines 175-195 of `clean_backup_files`: the planning step over an
already-discovered candidate list. Returns the retained candidate
(`backups_sorted[-1]`; `none` when no candidate was found, matching the
early return of line 175) together with the `to_delete` list. The cutoff
of line 183 is `now - timedelta(days=days)`, i.e. exactly
`days * 86400` seconds before `now`. -/
def clean_backup_plan (cs : List Candidate) (nowT days : Int) :
    Option Candidate × List Candidate :=
  match (sortBackups cs).getLast? with
  | none => (none, [])
  | some newest =>
    (some newest,
      (sortBackups cs).filter (deletable newest.path (nowT - days * 86400)))

/-- One field of a parsed `datetime` value, as produced by
`datetime.strptime`. -/
structure PyDateTime where
  year : Nat
  month : Nat
  day : Nat
  hour : Nat
  minute : Nat
  second : Nat
deriving DecidableEq, Repr

/-- Numeric value of an ASCII digit. -/
def digitVal (c : Char) : Nat := c.toNat - 48

/-- CPython `_strptime` matches `%Y` with the regex `\d\d\d\d`: exactly
four digits. Each `alts` function below enumerates the `(value, rest)`
pairs one field's sub-regex can produce, in the priority order of the
backtracking engine. -/
def altsYear : List Char → List (Nat × List Char)
  | a :: b :: c :: d :: r =>
    if a.isDigit ∧ b.isDigit ∧ c.isDigit ∧ d.isDigit then
      [(digitVal a * 1000 + digitVal b * 100 + digitVal c * 10 + digitVal d, r)]
    else []
  | _ => []

/-- CPython sub-regex for `%m`: `1[0-2]|0[1-9]|[1-9]` (the leading zero
is optional). -/
def altsMonth : List Char → List (Nat × List Char)
  | a :: b :: r =>
    (if a = '1' ∧ ('0' ≤ b ∧ b ≤ '2') then [(10 + digitVal b, r)] else []) ++
    (if a = '0' ∧ ('1' ≤ b ∧ b ≤ '9') then [(digitVal b, r)] else []) ++
    (if '1' ≤ a ∧ a ≤ '9' then [(digitVal a, b :: r)] else [])
  | [a] => if '1' ≤ a ∧ a ≤ '9' then [(digitVal a, [])] else []
  | [] => []

/-- CPython sub-regex for `%d`: `3[01]|[12]\d|0[1-9]|[1-9]`. -/
def altsDay : List Char → List (Nat × List Char)
  | a :: b :: r =>
    (if a = '3' ∧ ('0' ≤ b ∧ b ≤ '1') then [(30 + digitVal b, r)] else []) ++
    (if ('1' ≤ a ∧ a ≤ '2') ∧ b.isDigit then [(digitVal a * 10 + digitVal b, r)] else []) ++
    (if a = '0' ∧ ('1' ≤ b ∧ b ≤ '9') then [(digitVal b, r)] else []) ++
    (if '1' ≤ a ∧ a ≤ '9' then [(digitVal a, b :: r)] else [])
  | [a] => if '1' ≤ a ∧ a ≤ '9' then [(digitVal a, [])] else []
  | [] => []

/-- CPython sub-regex for `%H`: `2[0-3]|[0-1]\d|\d`. -/
def altsHour : List Char → List (Nat × List Char)
  | a :: b :: r =>
    (if a = '2' ∧ ('0' ≤ b ∧ b ≤ '3') then [(20 + digitVal b, r)] else []) ++
    (if ('0' ≤ a ∧ a ≤ '1') ∧ b.isDigit then [(digitVal a * 10 + digitVal b, r)] else []) ++
    (if a.isDigit then [(digitVal a, b :: r)] else [])
  | [a] => if a.isDigit then [(digitVal a, [])] else []
  | [] => []

/-- CPython sub-regex for `%M`: `[0-5]\d|\d`. -/
def altsMinute : List Char → List (Nat × List Char)
  | a :: b :: r =>
    (if ('0' ≤ a ∧ a ≤ '5') ∧ b.isDigit then [(digitVal a * 10 + digitVal b, r)] else []) ++
    (if a.isDigit then [(digitVal a, b :: r)] else [])
  | [a] => if a.isDigit then [(digitVal a, [])] else []
  | [] => []

/-- CPython sub-regex for `%S`: `6[0-1]|[0-5]\d|\d` (the leap seconds 60
and 61 pass the regex; the `datetime` constructor rejects them
afterwards). -/
def altsSecond : List Char → List (Nat × List Char)
  | a :: b :: r =>
    (if a = '6' ∧ ('0' ≤ b ∧ b ≤ '1') then [(60 + digitVal b, r)] else []) ++
    (if ('0' ≤ a ∧ a ≤ '5') ∧ b.isDigit then [(digitVal a * 10 + digitVal b, r)] else []) ++
    (if a.isDigit then [(digitVal a, b :: r)] else [])
  | [a] => if a.isDigit then [(digitVal a, [])] else []
  | [] => []

/-- First successful branch in priority order: the behaviour of an
ordered regex alternation in a backtracking engine. -/
def firstSome {α β : Type} (f : α → Option β) : List α → Option β
  | [] => none
  | a :: r =>
    match f a with
    | some b => some b
    | none => firstSome f r

/-- Full match of CPython's compiled pattern for `"%Y%m%d_%H%M%S"`
against the whole input: the engine tries field alternatives in priority
order and backtracks across fields, and `_strptime` finally checks that
the match consumed the entire string. -/
def matchYmdHms (s : List Char) : Option (Nat × Nat × Nat × Nat × Nat × Nat) :=
  firstSome (fun py =>
    firstSome (fun pm =>
      firstSome (fun pd =>
        match pd.2 with
        | '_' :: r4 =>
          firstSome (fun ph =>
            firstSome (fun pmin =>
              firstSome (fun ps =>
                if ps.2.isEmpty then
                  some (py.1, pm.1, pd.1, ph.1, pmin.1, ps.1)
                else none) (altsSecond pmin.2)) (altsMinute ph.2)) (altsHour r4)
        | _ => none) (altsDay pm.2)) (altsMonth py.2)) (altsYear s)

/-- The Gregorian leap-year rule of Python `datetime.date`. -/
def isLeapYear (y : Nat) : Bool :=
  y % 4 == 0 && (y % 100 != 0 || y % 400 == 0)

/-- Length of a month, as validated by the `datetime.date`
constructor. -/
def daysInMonth (y m : Nat) : Nat :=
  if m = 2 then (if isLeapYear y then 29 else 28)
  else if m = 4 ∨ m = 6 ∨ m = 9 ∨ m = 11 then 30
  else 31

/-- The model of `datetime.strptime(s, "%Y%m%d_%H%M%S")`: `none` when
the call raises `ValueError`. After the regex phase, `_strptime` builds
`date(year, month, day)`, rejecting year 0 and day overflow, and
`datetime.strptime` finally constructs `datetime(...)`, rejecting the
leap seconds 60 and 61 that the `%S` sub-regex admits; month, hour and
minute ranges are already enforced by the sub-regexes. Digits are
modelled as ASCII `0`-`9`. -/
def strptimeYmdHms (s : String) : Option PyDateTime :=
  match matchYmdHms s.data with
  | none => none
  | some (y, m, d, h, mi, se) =>
    if 1 ≤ y ∧ d ≤ daysInMonth y m ∧ se ≤ 59 then
      some ⟨y, m, d, h, mi, se⟩
    else none

/-- Days in the years `1 .. y-1` of the proleptic Gregorian calendar
(the year part of `datetime.date.toordinal`). -/
def daysBeforeYear (y : Nat) : Nat :=
  (y - 1) * 365 + (y - 1) / 4 - (y - 1) / 100 + (y - 1) / 400

/-- Days in the months `1 .. m-1` of year `y`. -/
def daysBeforeMonth (y m : Nat) : Nat :=
  (List.range (m - 1)).foldl (fun acc i => acc + daysInMonth y (i + 1)) 0

/-- Python `date(y, m, d).toordinal()`. -/
def toOrdinal (y m d : Nat) : Nat :=
  daysBeforeYear y + daysBeforeMonth y m + d

/-- Order-faithful embedding of a `datetime` value into seconds. -/
def dtToSec (t : PyDateTime) : Int :=
  ((toOrdinal t.year t.month t.day) * 86400 +
    t.hour * 3600 + t.minute * 60 + t.second : Nat)

/-- One directory entry as seen by `os.listdir`, together with the
`os.path.isfile` status of the joined path. -/
structure Entry where
  name : String
  isFile : Bool
deriving DecidableEq, Repr

/-- Python `name.startswith(prefix)`; both sides are sequences of code
points. -/
def pyStartsWith (s pre : String) : Bool := pre.data.isPrefixOf s.data

/-- Python `name[len(prefix):]` (code-point slicing). -/
def pySliceFrom (s : String) (n : Nat) : String := ⟨s.data.drop n⟩

/-- The configuration file's basename: every branch of
`get_storage_path` ends in `storage.json`, so
`os.path.basename(storage_path)` is this constant. -/
def storageBase : String := "storage.json"

/-- The `prefix = base_name + ".backup_"` of lines 156 and 237. -/
def backupPrefix (base : String) : String := base ++ ".backup_"

/-- Lines 158-173 of `clean_backup_files`: the discovery loop. Keeps the
entries whose name starts with the backup prefix and which are regular
files, and records the parsed timestamp of each kept entry, `none` when
`strptime` raised. The path is `os.path.join(directory, name)`. -/
def discover (dir base : String) (entries : List Entry) :
    List (String × Option PyDateTime) :=
  entries.filterMap (fun e =>
    if pyStartsWith e.name (backupPrefix base) then
      if e.isFile then
        some (dir ++ "/" ++ e.name,
          strptimeYmdHms (pySliceFrom e.name (backupPrefix base).data.length))
      else none
    else none)

/-- The discovered entries as planner candidates, timestamps mapped to
their second counts. -/
def discoverCandidates (dir base : String) (entries : List Entry) : List Candidate :=
  (discover dir base entries).map (fun p => ⟨p.1, p.2.map dtToSec⟩)

/-- The whole of `clean_backup_files` (lines 140-225) over an abstract
directory listing, with the ambient `datetime.now()` of line 183 passed
explicitly: discovery followed by the planning step. Returns the
retained candidate and the `to_delete` list; the source finally projects
the latter to its paths, see `clean_backup_files_paths`. -/
def clean_backup_files (dir : String) (entries : List Entry) (nowT days : Int) :
    Option Candidate × List Candidate :=
  clean_backup_plan (discoverCandidates dir storageBase entries) nowT days

/-- The returned path list `[p for p, _ in to_delete]` of line 223. -/
def clean_backup_files_paths (dir : String) (entries : List Entry) (nowT days : Int) :
    List String :=
  ((clean_backup_files dir entries nowT days).2).map Candidate.path

/-- Lines 228-255, `delete_all_backups`: the path of every entry that
starts with the backup prefix and is a regular file, unfiltered. -/
def delete_all_backups (dir : String) (entries : List Entry) : List String :=
  entries.filterMap (fun e =>
    if pyStartsWith e.name (backupPrefix storageBase) then
      if e.isFile then some (dir ++ "/" ++ e.name) else none
    else none)

/-- The deletion loops of `on_clean_clicked` (lines 432-439) and
`on_clean_all_clicked` (lines 475-482). The filesystem is a list of
existing paths and `removable` abstracts per-path permission:
`os.remove(p)` succeeds iff `p` exists and is removable, after which `p`
is gone for the remaining iterations; any failure is appended to the
`errors` list (the Python exception object is abstracted away) and the
loop continues with the next path. Returns `(removed, failed)`. -/
def delete_paths (removable : String → Bool) :
    List String → List String → List String × List String
  | _, [] => ([], [])
  | fs, p :: ps =>
    if fs.contains p && removable p then
      let res := delete_paths removable (fs.erase p) ps
      (p :: res.1, res.2)
    else
      let res := delete_paths removable fs ps
      (res.1, p :: res.2)

/-- Python `dict` assignment `d[k] = v`: replace in place when the key
is present, append otherwise (insertion order preserved). -/
def dictSet {V : Type} : List (String × V) → String → V → List (String × V)
  | [], k, v => [(k, v)]
  | (k₀, v₀) :: rest, k, v =>
    if k₀ = k then (k, v) :: rest else (k₀, v₀) :: dictSet rest k v

/-- Python `dict` lookup. -/
def dictGet {V : Type} : List (String × V) → String → Option V
  | [], _ => none
  | (k₀, v₀) :: rest, k => if k₀ = k then some v₀ else dictGet rest k

/-- Lines 68-98, `update_storage_file`, at the document level: the JSON
object is an insertion-ordered key/value list; a missing file or a
`json.load` failure (`doc = none` here) starts from the empty object
(lines 79-86); the four telemetry keys are then assigned in order
(lines 89-92) with freshly generated values, which are parameters
here. -/
def update_storage_file {V : Type} (doc : Option (List (String × V)))
    (machineId macMachineId devDeviceId sqmId : V) : List (String × V) :=
  dictSet (dictSet (dictSet (dictSet (doc.getD [])
    ("telemetry.machineId") machineId)
    ("telemetry.macMachineId") macMachineId)
    ("telemetry.devDeviceId") devDeviceId)
    ("telemetry.sqmId") sqmId

/-- Digit run of a Python `int()` literal after the first digit: single
underscores are allowed between digits only. -/
def pyDigitsGo : Nat → List Char → Option Nat
  | acc, [] => some acc
  | acc, '_' :: c :: r =>
    if c.isDigit then pyDigitsGo (acc * 10 + digitVal c) r else none
  | acc, c :: r =>
    if c.isDigit then pyDigitsGo (acc * 10 + digitVal c) r else none

/-- Nonempty digit run, which may not start with an underscore. -/
def pyDigits : List Char → Option Nat
  | [] => none
  | c :: r => if c.isDigit then pyDigitsGo (digitVal c) r else none

/-- Python `int(s)` for a `str` argument, restricted to ASCII: optional
surrounding whitespace, an optional sign, then digits with single
interior underscores. -/
def pyInt (s : String) : Option Int :=
  match s.trim.data with
  | '+' :: r => (pyDigits r).map (fun n => (n : Int))
  | '-' :: r => (pyDigits r).map (fun n => -(n : Int))
  | r => (pyDigits r).map (fun n => (n : Int))

/-- Lines 402-409 of `on_clean_clicked`: `raw_days =
entry_days.get().strip()`, then `days = int(raw_days)`, raising (and
hence falling back to the default of 3 days) when the parse fails or
the parsed value is not positive. -/
def on_clean_days (raw : String) : Int :=
  match pyInt raw.trim with
  | some d => if d ≤ 0 then 3 else d
  | none => 3

/-- Modelled from the spec: a suffix in the exact `YYYYMMDD_HHMMSS`
shape, "4-digit year, 2-digit month, 2-digit day, underscore, 2-digit
hour, 2-digit minute, 2-digit second" - 8 digits, an underscore, 6
digits. Used to compare the spec's description of the timestamp parser
with the behaviour of `datetime.strptime`. -/
def specExactYmdHms (s : String) : Bool :=
  s.data.length == 15 &&
    (s.data.take 8).all Char.isDigit &&
    ((s.data.drop 8).take 1 == ['_']) &&
    (s.data.drop 9).all Char.isDigit

/-- Modelled from the spec: the basename "strictly extends" the prefix,
i.e. starts with it and is strictly longer. -/
def specStrictExt (name pre : String) : Bool :=
  pyStartsWith name pre && decide (pre.data.length < name.data.length)

theorem tsKeyLe_refl (x : Option Int) : tsKeyLe x x = true := by
  cases x <;> simp [tsKeyLe]

theorem mem_sortBackups {cs : List Candidate} {c : Candidate} :
    c ∈ sortBackups cs ↔ c ∈ cs :=
  (List.perm_insertionSort candLe cs).mem_iff

theorem sorted_sortBackups (cs : List Candidate) :
    List.Sorted candLe (sortBackups cs) :=
  List.sorted_insertionSort candLe cs

theorem sortBackups_ne_nil {cs : List Candidate} (h : cs ≠ []) :
    sortBackups cs ≠ [] := by
  intro hs
  apply h
  have hp := List.perm_insertionSort candLe cs
  unfold sortBackups at hs
  rw [hs] at hp
  exact (hp.symm).eq_nil

/-- In a `candLe`-sorted list every member is related to the last
element; the relation is reflexive, which covers the member being the
last element itself. -/
theorem sorted_rel_getLast :
    ∀ {l : List Candidate}, List.Sorted candLe l →
      ∀ {a : Candidate}, a ∈ l → ∀ (h : l ≠ []), candLe a (l.getLast h)
  | [], _, _, ha, h => absurd rfl h
  | [x], _, a, ha, _ => by
    have hax : a = x := by simpa using ha
    subst hax
    exact tsKeyLe_refl _
  | x :: y :: t, hs, a, ha, _ => by
    rw [List.getLast_cons (by simp : y :: t ≠ [])]
    rcases List.mem_cons.mp ha with rfl | hmem
    · exact (List.sorted_cons.mp hs).1 _ (List.getLast_mem _)
    · exact sorted_rel_getLast (List.sorted_cons.mp hs).2 hmem (by simp)

/-- Logical reading of the deletion test. -/
theorem deletable_iff {np : String} {co : Int} {c : Candidate} :
    deletable np co c = true ↔
      (c.path ≠ np ∧ ∃ t, c.ts = some t ∧ t < co) := by
  cases hc : c.ts <;> simp [deletable, hc]

theorem clean_backup_plan_of_getLast_none {cs : List Candidate} (nowT days : Int)
    (h : (sortBackups cs).getLast? = none) :
    clean_backup_plan cs nowT days = (none, []) := by
  unfold clean_backup_plan
  rw [h]

theorem clean_backup_plan_of_getLast_some {cs : List Candidate} (nowT days : Int)
    {newest : Candidate} (h : (sortBackups cs).getLast? = some newest) :
    clean_backup_plan cs nowT days =
      (some newest,
        (sortBackups cs).filter (deletable newest.path (nowT - days * 86400))) := by
  unfold clean_backup_plan
  rw [h]

theorem mem_of_getLast?_eq_some {l : List Candidate} {x : Candidate}
    (h : l.getLast? = some x) : x ∈ l := by
  have hne : l ≠ [] := by
    intro hl
    rw [hl] at h
    exact Option.noConfusion h
  rw [List.getLast?_eq_getLast l hne] at h
  have hx : x = l.getLast hne := (Option.some.injEq _ _).mp h.symm
  rw [hx]
  exact List.getLast_mem hne

/-- C1, counterexample: a directory with one backup carrying a parsable
(old) timestamp and one backup whose suffix does not parse. The
unparsable candidate sorts last, becomes `backups_sorted[-1]` and is
protected, while the candidate with the maximum parsable timestamp is
put on the deletion list - against the claim that the newest parsable
candidate is never deleted. `retentionDays = 1` is positive and `now` is
far after the cutoff. -/
theorem clean_cex_newest_deleted :
    (clean_backup_files "/d"
        [⟨"storage.json.backup_19700102_000000", true⟩,
         ⟨"storage.json.backup_xx", true⟩] 100000000000 1).2.map Candidate.path =
      ["/d/storage.json.backup_19700102_000000"] ∧
    discoverCandidates "/d" storageBase
        [⟨"storage.json.backup_19700102_000000", true⟩,
         ⟨"storage.json.backup_xx", true⟩] =
      [⟨"/d/storage.json.backup_19700102_000000", some (dtToSec ⟨1970, 1, 2, 0, 0, 0⟩)⟩,
       ⟨"/d/storage.json.backup_xx", none⟩] := by
  decide

/-- C1 (amended): when every candidate has a parsable timestamp, the
candidate `m` whose timestamp is strictly maximal is never on the
deletion list, for every positive `retentionDays` and every `now` - even
when `m` is older than the cutoff. (The amendment adds the hypothesis
that no candidate has an absent timestamp; without it the protection
fails, see the counterexample.) -/
theorem clean_plan_protects_newest (cs : List Candidate) (nowT days : Int)
    (m : Candidate) (tm : Int)
    (hpos : 0 < days)
    (hall : ∀ c ∈ cs, c.ts ≠ none)
    (hm : m ∈ cs) (hmts : m.ts = some tm)
    (hmax : ∀ c ∈ cs, c ≠ m → tsKeyLe m.ts c.ts = false) :
    m ∉ (clean_backup_plan cs nowT days).2 := by
  have hne : sortBackups cs ≠ [] := List.ne_nil_of_mem (mem_sortBackups.mpr hm)
  have hL := List.getLast?_eq_getLast _ hne
  have hLm : (sortBackups cs).getLast hne = m := by
    by_contra hne2
    have hLmem : (sortBackups cs).getLast hne ∈ cs :=
      mem_sortBackups.mp (List.getLast_mem hne)
    have hrel : candLe m ((sortBackups cs).getLast hne) :=
      sorted_rel_getLast (sorted_sortBackups cs) (mem_sortBackups.mpr hm) hne
    unfold candLe at hrel
    rw [hmax _ hLmem hne2] at hrel
    exact absurd hrel (by simp)
  rw [clean_backup_plan_of_getLast_some nowT days hL]
  intro hmem
  have hd := (List.mem_filter.mp hmem).2
  rw [deletable_iff] at hd
  exact hd.1 (by rw [hLm])

/-- Witness for the amended C1 at a concrete input. -/
theorem clean_plan_protects_newest_witness :
    (⟨"b", some 9⟩ : Candidate) ∉
      (clean_backup_plan [⟨"a", some 5⟩, ⟨"b", some 9⟩] 1000000 1).2 :=
  clean_plan_protects_newest [⟨"a", some 5⟩, ⟨"b", some 9⟩] 1000000 1
    ⟨"b", some 9⟩ 9 (by decide) (by decide) (by decide) rfl (by decide)

/-- C2, counterexample: with one parsable and one unparsable candidate,
the retained candidate is the unparsable one (it sorts last), not the
last candidate with a non-absent timestamp as the claim states. -/
theorem clean_plan_retained_cex :
    (clean_backup_plan [⟨"a", some 0⟩, ⟨"b", none⟩] 200000 1).1 = some ⟨"b", none⟩ ∧
    (clean_backup_plan [⟨"a", some 0⟩, ⟨"b", none⟩] 200000 1).1 ≠ some ⟨"a", some 0⟩ := by
  decide

/-- C2 (amended): on an empty candidate list the plan is empty with no
retained candidate; on a non-empty list the retained candidate is a
member whose sort key (absent timestamps counting as maximal) is above
every candidate's - hence an absent-timestamp candidate whenever one
exists, and the newest timestamped one when all timestamps parse; and
when no candidate has a parsable timestamp nothing is deleted (though,
against the original claim, the retained candidate is then still
present, not absent). -/
theorem clean_plan_retained (cs : List Candidate) (nowT days : Int) :
    (cs = [] → clean_backup_plan cs nowT days = (none, []))
    ∧ (cs ≠ [] → ∃ r, (clean_backup_plan cs nowT days).1 = some r ∧ r ∈ cs ∧
        ∀ c ∈ cs, tsKeyLe c.ts r.ts = true)
    ∧ ((∀ c ∈ cs, c.ts = none) → (clean_backup_plan cs nowT days).2 = []) := by
  refine ⟨?_, ?_, ?_⟩
  · intro h
    subst h
    exact clean_backup_plan_of_getLast_none nowT days rfl
  · intro hne
    have hne2 := sortBackups_ne_nil hne
    have hL := List.getLast?_eq_getLast _ hne2
    refine ⟨(sortBackups cs).getLast hne2, ?_, ?_, ?_⟩
    · rw [clean_backup_plan_of_getLast_some nowT days hL]
    · exact mem_sortBackups.mp (List.getLast_mem hne2)
    · intro c hc
      exact sorted_rel_getLast (sorted_sortBackups cs) (mem_sortBackups.mpr hc) hne2
  · intro hall
    cases hL : (sortBackups cs).getLast? with
    | none => rw [clean_backup_plan_of_getLast_none nowT days hL]
    | some newest =>
      rw [clean_backup_plan_of_getLast_some nowT days hL]
      refine List.filter_eq_nil_iff.mpr ?_
      intro c hc
      have hts := hall c (mem_sortBackups.mp hc)
      simp [deletable, hts]

/-- Witness for the amended C2 at a concrete input. -/
theorem clean_plan_retained_witness :
    ∃ r, (clean_backup_plan [⟨"a", some 0⟩] 200000 1).1 = some r ∧
      r ∈ [(⟨"a", some 0⟩ : Candidate)] ∧
      ∀ c ∈ [(⟨"a", some 0⟩ : Candidate)], tsKeyLe c.ts r.ts = true :=
  (clean_plan_retained [⟨"a", some 0⟩] 200000 1).2.1 (by decide)

/-- C3: for every candidate list with pairwise distinct paths, positive
`retentionDays` and every `now`, whenever the plan has a retained
candidate `r` the deletion list holds exactly the candidates other than
`r` that carry a parsable timestamp strictly below
`now - retentionDays * 86400` (a day being exactly 24 hours); the list
is ascending in the timestamp order `candLe`; and without a retained
candidate the list is empty. -/
theorem clean_plan_exact (cs : List Candidate) (nowT days : Int)
    (hpos : 0 < days) (hnd : (cs.map Candidate.path).Nodup) :
    (∀ r, (clean_backup_plan cs nowT days).1 = some r →
      ∀ c, c ∈ (clean_backup_plan cs nowT days).2 ↔
        (c ∈ cs ∧ c ≠ r ∧ ∃ t, c.ts = some t ∧ t < nowT - days * 86400))
    ∧ List.Sorted candLe (clean_backup_plan cs nowT days).2
    ∧ ((clean_backup_plan cs nowT days).1 = none →
        (clean_backup_plan cs nowT days).2 = []) := by
  cases hL : (sortBackups cs).getLast? with
  | none =>
    rw [clean_backup_plan_of_getLast_none nowT days hL]
    exact ⟨fun r hr => absurd hr (by simp), List.sorted_nil, fun _ => rfl⟩
  | some newest =>
    rw [clean_backup_plan_of_getLast_some nowT days hL]
    have hNmem : newest ∈ cs := mem_sortBackups.mp (mem_of_getLast?_eq_some hL)
    refine ⟨?_, ?_, ?_⟩
    · intro r hr c
      have hrn : newest = r := Option.some.inj hr
      subst hrn
      constructor
      · intro hcin
        have h2 := List.mem_filter.mp hcin
        have hcs : c ∈ cs := mem_sortBackups.mp h2.1
        have hd := deletable_iff.mp h2.2
        refine ⟨hcs, ?_, hd.2⟩
        intro hcr
        exact hd.1 (by rw [hcr])
      · rintro ⟨hcs, hcr, t, ht, hlt⟩
        refine List.mem_filter.mpr
          ⟨mem_sortBackups.mpr hcs, deletable_iff.mpr ⟨?_, t, ht, hlt⟩⟩
        intro hpath
        exact hcr (List.inj_on_of_nodup_map hnd hcs hNmem hpath)
    · exact List.Pairwise.filter _ (sorted_sortBackups cs)
    · intro hnone
      exact Option.noConfusion hnone

/-- Witness for C3 at a concrete input: the old candidate is on the
deletion list of a two-candidate plan, by the characterization. -/
theorem clean_plan_exact_witness :
    (⟨"a", some 0⟩ : Candidate) ∈
      (clean_backup_plan [⟨"a", some 0⟩, ⟨"b", some 9⟩] 100000 1).2 :=
  ((clean_plan_exact [⟨"a", some 0⟩, ⟨"b", some 9⟩] 100000 1 (by decide) (by decide)).1
    ⟨"b", some 9⟩ (by decide) ⟨"a", some 0⟩).mpr
    ⟨by decide, by decide, 0, rfl, by decide⟩

/-- C5: for a fixed candidate list and `now`, and positive
`retentionDays` values `d₁ ≤ d₂`, the plan for `d₂` deletes no more
candidates than the plan for `d₁`. -/
theorem clean_plan_monotone (cs : List Candidate) (nowT d₁ d₂ : Int)
    (h1 : 0 < d₁) (h12 : d₁ ≤ d₂) :
    ((clean_backup_plan cs nowT d₂).2).length ≤
      ((clean_backup_plan cs nowT d₁).2).length := by
  cases hL : (sortBackups cs).getLast? with
  | none =>
    rw [clean_backup_plan_of_getLast_none nowT d₂ hL,
      clean_backup_plan_of_getLast_none nowT d₁ hL]
  | some newest =>
    rw [clean_backup_plan_of_getLast_some nowT d₂ hL,
      clean_backup_plan_of_getLast_some nowT d₁ hL]
    refine List.Sublist.length_le (List.monotone_filter_right _ ?_)
    intro c hc
    rw [deletable_iff] at hc ⊢
    obtain ⟨hp, t, ht, hlt⟩ := hc
    exact ⟨hp, t, ht, by omega⟩

/-- Witness for C5 at a concrete input. -/
theorem clean_plan_monotone_witness :
    ((clean_backup_plan [⟨"a", some 0⟩, ⟨"b", some 9⟩] 1000000 5).2).length ≤
      ((clean_backup_plan [⟨"a", some 0⟩, ⟨"b", some 9⟩] 1000000 1).2).length :=
  clean_plan_monotone [⟨"a", some 0⟩, ⟨"b", some 9⟩] 1000000 1 5
    (by decide) (by decide)

/-- Unfolding of one step of the deletion loop. -/
theorem delete_paths_cons (removable : String → Bool) (fs : List String)
    (q : String) (qs : List String) :
    delete_paths removable fs (q :: qs) =
      if fs.contains q && removable q then
        (q :: (delete_paths removable (fs.erase q) qs).1,
          (delete_paths removable (fs.erase q) qs).2)
      else
        ((delete_paths removable fs qs).1,
          q :: (delete_paths removable fs qs).2) := rfl

/-- C4: the deletion loop never aborts: whatever the filesystem and the
per-path permissions, the removed and failed lists are subsequences of
the input (so the input order of attempts is preserved), and, counting
multiplicity, every input path lands in exactly one of the two
lists. -/
theorem delete_paths_partition (removable : String → Bool) (fs ps : List String) :
    (delete_paths removable fs ps).1.Sublist ps ∧
    (delete_paths removable fs ps).2.Sublist ps ∧
    ∀ p, (delete_paths removable fs ps).1.count p +
      (delete_paths removable fs ps).2.count p = ps.count p := by
  induction ps generalizing fs with
  | nil => exact ⟨List.Sublist.refl _, List.Sublist.refl _, fun p => rfl⟩
  | cons q qs ih =>
    rw [delete_paths_cons]
    by_cases h : (fs.contains q && removable q) = true
    · rw [if_pos h]
      obtain ⟨s1, s2, hc⟩ := ih (fs.erase q)
      refine ⟨List.Sublist.cons₂ q s1, List.Sublist.cons q s2, ?_⟩
      intro p
      have hcp := hc p
      by_cases hqp : (q == p) = true <;> simp [List.count_cons, hqp] <;> omega
    · rw [if_neg h]
      obtain ⟨s1, s2, hc⟩ := ih fs
      refine ⟨List.Sublist.cons q s1, List.Sublist.cons₂ q s2, ?_⟩
      intro p
      have hcp := hc p
      by_cases hqp : (q == p) = true <;> simp [List.count_cons, hqp] <;> omega

/-- Every kept entry of the discovery loop. -/
theorem mem_discover_iff {dir base : String} {entries : List Entry}
    {pc : String × Option PyDateTime} :
    pc ∈ discover dir base entries ↔
      ∃ e ∈ entries, e.isFile = true ∧
        pyStartsWith e.name (backupPrefix base) = true ∧
        pc = (dir ++ "/" ++ e.name,
          strptimeYmdHms (pySliceFrom e.name (backupPrefix base).data.length)) := by
  unfold discover
  rw [List.mem_filterMap]
  constructor
  · rintro ⟨e, he, hfe⟩
    by_cases h1 : pyStartsWith e.name (backupPrefix base) = true
    · by_cases h2 : e.isFile = true
      · simp only [h1, h2, if_true] at hfe
        exact ⟨e, he, h2, h1, (Option.some.inj hfe).symm⟩
      · simp [h1, h2] at hfe
    · simp [h1] at hfe
  · rintro ⟨e, he, h2, h1, rfl⟩
    exact ⟨e, he, by simp [h1, h2]⟩

/-- Discovery drops no selected entry: parse failures are kept with an
absent timestamp rather than aborting or being skipped. -/
theorem discover_length (dir base : String) (entries : List Entry) :
    (discover dir base entries).length =
      (entries.filter (fun e =>
        pyStartsWith e.name (backupPrefix base) && e.isFile)).length := by
  induction entries with
  | nil => rfl
  | cons e es ih =>
    simp only [discover, List.filterMap_cons, List.filter_cons] at ih ⊢
    by_cases h1 : pyStartsWith e.name (backupPrefix base) = true
    · by_cases h2 : e.isFile = true
      · simp only [h1, h2, if_true]
        simpa using ih
      · simp only [h1, h2, if_true, if_false, Bool.and_false]
        simpa [h2] using ih
    · simp only [h1]
      simpa [h1] using ih

/-- C6 (amended): discovery selects exactly the regular-file entries
whose name starts with `base + ".backup_"`; no selected entry is dropped
even when its suffix fails to parse (the count equality), and a selected
entry's timestamp is the result of `datetime.strptime` on the suffix
after the prefix - absent exactly when that call raises. The amendment:
the accepted language is that of Python `strptime`, which also takes
non-zero-padded fields, not the exact `YYYYMMDD_HHMMSS` shape (see the
counterexample). -/
theorem discover_spec (dir base : String) (entries : List Entry) :
    (∀ pc, pc ∈ discover dir base entries ↔
      ∃ e ∈ entries, e.isFile = true ∧
        pyStartsWith e.name (backupPrefix base) = true ∧
        pc = (dir ++ "/" ++ e.name,
          strptimeYmdHms (pySliceFrom e.name (backupPrefix base).data.length)))
    ∧ (discover dir base entries).length =
        (entries.filter (fun e =>
          pyStartsWith e.name (backupPrefix base) && e.isFile)).length :=
  ⟨fun _ => mem_discover_iff, discover_length dir base entries⟩

/-- C6, counterexample: the suffix `202411_000000` is not in the exact
`YYYYMMDD_HHMMSS` shape (13 characters, month and day not zero-padded),
yet `datetime.strptime` parses it as 2024-01-01 00:00:00, so the
discovered candidate's timestamp is not absent - against the claim that
failing the exact shape records an absent timestamp. -/
theorem discover_parse_cex :
    strptimeYmdHms "202411_000000" = some ⟨2024, 1, 1, 0, 0, 0⟩ ∧
    specExactYmdHms "202411_000000" = false ∧
    discover "/d" storageBase [⟨"storage.json.backup_202411_000000", true⟩] =
      [("/d/storage.json.backup_202411_000000", some ⟨2024, 1, 1, 0, 0, 0⟩)] := by
  decide

/-- The delete-all plan lists exactly the discovered paths. -/
theorem delete_all_eq_discover (dir : String) (entries : List Entry) :
    delete_all_backups dir entries = (discover dir storageBase entries).map Prod.fst := by
  induction entries with
  | nil => rfl
  | cons e es ih =>
    simp only [delete_all_backups, discover, List.filterMap_cons] at ih ⊢
    by_cases h1 : pyStartsWith e.name (backupPrefix storageBase) = true
    · by_cases h2 : e.isFile = true
      · simp [h1, h2, ih]
      · simp [h1, h2, ih]
    · simp [h1, ih]

/-- C7: `delete_all_backups` returns the path of every discovered
candidate - every regular file whose name starts with the backup
prefix - with no retention filtering and no protection of the
newest. -/
theorem delete_all_unfiltered (dir : String) (entries : List Entry) :
    delete_all_backups dir entries =
      (discoverCandidates dir storageBase entries).map Candidate.path ∧
    ∀ q, q ∈ delete_all_backups dir entries ↔
      ∃ e ∈ entries, e.isFile = true ∧
        pyStartsWith e.name (backupPrefix storageBase) = true ∧
        q = dir ++ "/" ++ e.name := by
  constructor
  · rw [delete_all_eq_discover]
    unfold discoverCandidates
    rw [List.map_map]
    rfl
  · intro q
    unfold delete_all_backups
    rw [List.mem_filterMap]
    constructor
    · rintro ⟨e, he, hfe⟩
      by_cases h1 : pyStartsWith e.name (backupPrefix storageBase) = true
      · by_cases h2 : e.isFile = true
        · simp only [h1, h2, if_true] at hfe
          exact ⟨e, he, h2, h1, (Option.some.inj hfe).symm⟩
        · simp [h1, h2] at hfe
      · simp [h1] at hfe
    · rintro ⟨e, he, h2, h1, rfl⟩
      exact ⟨e, he, by simp [h1, h2]⟩

theorem dictGet_dictSet_same {V : Type} (d : List (String × V)) (k : String) (v : V) :
    dictGet (dictSet d k v) k = some v := by
  induction d with
  | nil => simp [dictSet, dictGet]
  | cons kv rest ih =>
    obtain ⟨k₀, v₀⟩ := kv
    by_cases h : k₀ = k
    · simp [dictSet, dictGet, h]
    · simp [dictSet, dictGet, h, ih]

theorem dictGet_dictSet_other {V : Type} (d : List (String × V)) (k k' : String)
    (v : V) (h : k ≠ k') : dictGet (dictSet d k v) k' = dictGet d k' := by
  induction d with
  | nil => simp [dictSet, dictGet, h]
  | cons kv rest ih =>
    obtain ⟨k₀, v₀⟩ := kv
    by_cases h0 : k₀ = k
    · subst h0
      simp [dictSet, dictGet, h]
    · by_cases h1 : k₀ = k' <;> simp [dictSet, dictGet, h0, h1, ih, Ne.symm h]

/-- C8: `update_storage_file` overwrites exactly the four telemetry
keys - every other key of the document keeps its value - and a missing
or unparsable document is the empty object before the merge. -/
theorem update_storage_file_frame {V : Type} (doc : Option (List (String × V)))
    (mid mmid did sqm : V) (k : String)
    (hk : k ∉ [("telemetry.machineId" : String), "telemetry.macMachineId",
      "telemetry.devDeviceId", "telemetry.sqmId"]) :
    dictGet (update_storage_file doc mid mmid did sqm) k = dictGet (doc.getD []) k ∧
    dictGet (update_storage_file doc mid mmid did sqm) ("telemetry.machineId") = some mid ∧
    dictGet (update_storage_file doc mid mmid did sqm) ("telemetry.macMachineId") = some mmid ∧
    dictGet (update_storage_file doc mid mmid did sqm) ("telemetry.devDeviceId") = some did ∧
    dictGet (update_storage_file doc mid mmid did sqm) ("telemetry.sqmId") = some sqm ∧
    update_storage_file (none : Option (List (String × V))) mid mmid did sqm =
      update_storage_file (some []) mid mmid did sqm := by
  have h1 : k ≠ ("telemetry.machineId" : String) := fun he => hk (by rw [he]; simp)
  have h2 : k ≠ ("telemetry.macMachineId" : String) := fun he => hk (by rw [he]; simp)
  have h3 : k ≠ ("telemetry.devDeviceId" : String) := fun he => hk (by rw [he]; simp)
  have h4 : k ≠ ("telemetry.sqmId" : String) := fun he => hk (by rw [he]; simp)
  unfold update_storage_file
  refine ⟨?_, ?_, ?_, ?_, ?_, rfl⟩
  · rw [dictGet_dictSet_other _ _ _ _ (Ne.symm h4),
      dictGet_dictSet_other _ _ _ _ (Ne.symm h3),
      dictGet_dictSet_other _ _ _ _ (Ne.symm h2),
      dictGet_dictSet_other _ _ _ _ (Ne.symm h1)]
  · rw [dictGet_dictSet_other _ _ _ _ (by decide),
      dictGet_dictSet_other _ _ _ _ (by decide),
      dictGet_dictSet_other _ _ _ _ (by decide),
      dictGet_dictSet_same]
  · rw [dictGet_dictSet_other _ _ _ _ (by decide),
      dictGet_dictSet_other _ _ _ _ (by decide),
      dictGet_dictSet_same]
  · rw [dictGet_dictSet_other _ _ _ _ (by decide),
      dictGet_dictSet_same]
  · rw [dictGet_dictSet_same]

/-- Witness for C8 at a concrete input: a foreign key keeps its
value. -/
theorem update_storage_file_frame_witness :
    dictGet (update_storage_file (some [(("k0"), (7 : Nat))]) 1 2 3 4) ("k0") = some 7 :=
  ((update_storage_file_frame (some [(("k0"), (7 : Nat))]) 1 2 3 4 ("k0")
      (by decide)).1).trans (by decide)

/-- An empty suffix never parses: the `%Y` regex needs four digits. -/
theorem strptime_ne_empty {s : String} {dt : PyDateTime}
    (h : strptimeYmdHms s = some dt) : s.data ≠ [] := by
  intro hs
  cases s with
  | mk d =>
    simp only at hs
    subst hs
    exact Option.noConfusion h

/-- C9, counterexample: a regular file named exactly
`storage.json.backup_` (empty timestamp suffix) is returned by
`delete_all_backups`, and its basename does not strictly extend the
backup prefix - it equals it. -/
theorem delete_all_nonstrict_cex :
    delete_all_backups "/d" [⟨"storage.json.backup_", true⟩] =
      ["/d/storage.json.backup_"] ∧
    specStrictExt "storage.json.backup_" (backupPrefix storageBase) = false := by
  decide

/-- C9 (amended): every path either plan returns is
`directory + "/" + name` for a listed entry whose name starts with
`storage.json.backup_`; for `clean_backup_files` the name strictly
extends the prefix (deletable candidates carry parsed timestamps, so
their suffix is nonempty), while `delete_all_backups` may also return a
file named exactly like the prefix; in particular no plan ever lists an
entry named `storage.json`. -/
theorem plans_list_only_backups (dir : String) (entries : List Entry)
    (nowT days : Int) (p : String) :
    (p ∈ clean_backup_files_paths dir entries nowT days →
      ∃ e ∈ entries, p = dir ++ "/" ++ e.name ∧
        specStrictExt e.name (backupPrefix storageBase) = true ∧
        e.name ≠ storageBase)
    ∧ (p ∈ delete_all_backups dir entries →
      ∃ e ∈ entries, p = dir ++ "/" ++ e.name ∧
        pyStartsWith e.name (backupPrefix storageBase) = true ∧
        e.name ≠ storageBase) := by
  constructor
  · intro hp
    unfold clean_backup_files_paths at hp
    rw [List.mem_map] at hp
    obtain ⟨c, hc, rfl⟩ := hp
    unfold clean_backup_files at hc
    cases hL : (sortBackups (discoverCandidates dir storageBase entries)).getLast? with
    | none =>
      rw [clean_backup_plan_of_getLast_none nowT days hL] at hc
      exact absurd hc (by simp)
    | some newest =>
      rw [clean_backup_plan_of_getLast_some nowT days hL] at hc
      have h2 := List.mem_filter.mp hc
      have hcm : c ∈ discoverCandidates dir storageBase entries :=
        mem_sortBackups.mp h2.1
      have hd := deletable_iff.mp h2.2
      obtain ⟨t, ht, _⟩ := hd.2
      unfold discoverCandidates at hcm
      rw [List.mem_map] at hcm
      obtain ⟨pc, hpc, rfl⟩ := hcm
      rw [mem_discover_iff] at hpc
      obtain ⟨e, he, hfile, hpre, rfl⟩ := hpc
      refine ⟨e, he, rfl, ?_, ?_⟩
      · have hts : (strptimeYmdHms
            (pySliceFrom e.name (backupPrefix storageBase).data.length)).map dtToSec =
            some t := ht
        rw [Option.map_eq_some'] at hts
        obtain ⟨dt, hdt, _⟩ := hts
        have hne := strptime_ne_empty hdt
        have hlen : (backupPrefix storageBase).data.length < e.name.data.length := by
          by_contra hle
          push_neg at hle
          exact hne (List.drop_eq_nil_iff.mpr hle)
        unfold specStrictExt
        rw [hpre]
        simp only [Bool.true_and, decide_eq_true_eq]
        exact hlen
      · intro hname
        rw [hname] at hpre
        exact absurd hpre (by decide)
  · intro hp
    unfold delete_all_backups at hp
    rw [List.mem_filterMap] at hp
    obtain ⟨e, he, hfe⟩ := hp
    by_cases h1 : pyStartsWith e.name (backupPrefix storageBase) = true
    · by_cases h2 : e.isFile = true
      · simp only [h1, h2, if_true] at hfe
        refine ⟨e, he, (Option.some.inj hfe).symm, h1, ?_⟩
        intro hname
        rw [hname] at h1
        exact absurd h1 (by decide)
      · simp [h1, h2] at hfe
    · simp [h1] at hfe

/-- Witness for the amended C9 at a concrete input, for both plans. -/
theorem plans_list_only_backups_witness :
    (∃ e ∈ [(⟨"storage.json.backup_19700102_000000", true⟩ : Entry),
        ⟨"storage.json.backup_xx", true⟩],
      ("/d/storage.json.backup_19700102_000000" : String) = "/d" ++ "/" ++ e.name ∧
        specStrictExt e.name (backupPrefix storageBase) = true ∧
        e.name ≠ storageBase) ∧
    (∃ e ∈ [(⟨"storage.json.backup_19700102_000000", true⟩ : Entry),
        ⟨"storage.json.backup_xx", true⟩],
      ("/d/storage.json.backup_19700102_000000" : String) = "/d" ++ "/" ++ e.name ∧
        pyStartsWith e.name (backupPrefix storageBase) = true ∧
        e.name ≠ storageBase) :=
  ⟨(plans_list_only_backups "/d"
      [⟨"storage.json.backup_19700102_000000", true⟩, ⟨"storage.json.backup_xx", true⟩]
      100000000000 1 ("/d/storage.json.backup_19700102_000000")).1 (by decide),
   (plans_list_only_backups "/d"
      [⟨"storage.json.backup_19700102_000000", true⟩, ⟨"storage.json.backup_xx", true⟩]
      100000000000 1 ("/d/storage.json.backup_19700102_000000")).2 (by decide)⟩

/-- C10: the clean handler's retention-days input handling always hands
a positive number of days to `clean_backup_files`, falling back to 3
when the input does not parse as an integer or parses to a value that is
not positive. -/
theorem on_clean_days_pos (raw : String) :
    0 < on_clean_days raw ∧
    (pyInt raw.trim = none → on_clean_days raw = 3) ∧
    (∀ d, pyInt raw.trim = some d → d ≤ 0 → on_clean_days raw = 3) := by
  rcases h : pyInt raw.trim with _ | d
  · simp [on_clean_days, h]
  · by_cases hd : d ≤ 0 <;> simp [on_clean_days, h, hd] <;> omega

/-- Witness for C10 at a concrete input. -/
theorem on_clean_days_pos_witness :
    0 < on_clean_days ("abc") ∧
    (pyInt (("abc") : String).trim = none → on_clean_days ("abc") = 3) ∧
    (∀ d, pyInt (("abc") : String).trim = some d → d ≤ 0 →
      on_clean_days ("abc") = 3) :=
  on_clean_days_pos ("abc")

end MachineCode
